import Mathlib

/-!
Verification of the notes/blog application core: note persistence and
ordering (db.ts), session lifecycle and credential comparison (auth.ts).
The key-value store is modelled as an association list of entries carrying
a value, an optional metadata projection and an optional expiration time.
Third-party collaborators that are not part of the repository (nanoid,
marked, sanitize-html) are modelled from the specification; each such
definition carries a doc comment saying so.
-/

namespace Notes

/-- Note record as in types.ts: id, title, raw Markdown content, rendered
HTML, and creation/update timestamps. -/
structure Note where
  id : String
  title : String
  content : String
  htmlContent : String
  created : Nat
  updated : Nat
deriving DecidableEq

/-- Metadata projection of a note (types.ts NoteMeta). -/
structure NoteMeta where
  id : String
  title : String
  created : Nat
  updated : Nat
deriving DecidableEq

/-- A value stored in the key-value store: either a full note record
(stored as JSON in the real store; the JSON round-trip is modelled as
identity) or a plain string (session liveness markers, counters). -/
inductive KVValue where
  | vnote : Note → KVValue
  | vstr : String → KVValue
deriving DecidableEq

/-- One entry of the key-value store: key, value, optional metadata
side-channel, optional absolute expiration time. -/
structure KVEntry where
  key : String
  value : KVValue
  meta : Option NoteMeta
  expireAt : Option Nat
deriving DecidableEq

/-- The key-value store, modelled as a list of entries. -/
abbrev KV := List KVEntry

/-- Point lookup at time `now`; an entry whose expiration time has passed
is treated as absent (the store's own TTL eviction). -/
def kvGet (st : KV) (key : String) (now : Nat) : Option KVValue :=
  match st.find? (fun en => en.key == key) with
  | none => none
  | some en =>
    match en.expireAt with
    | none => some en.value
    | some t => if now < t then some en.value else none

/-- Write a key, overwriting any previous entry under the same key. -/
def kvPut (st : KV) (key : String) (v : KVValue) (meta : Option NoteMeta)
    (expireAt : Option Nat) : KV :=
  st.filter (fun en => en.key != key) ++ [⟨key, v, meta, expireAt⟩]

/-- Delete a key; deleting an absent key leaves the store unchanged. -/
def kvDelete (st : KV) (key : String) : KV :=
  st.filter (fun en => en.key != key)

/-- The list operation restricted to the "note:" key space, returning each
key together with its metadata side-channel (db.ts getAllNotes uses
list with the "note:" prefix). -/
def kvListNotes (st : KV) : List (String × Option NoteMeta) :=
  (st.filter (fun en => ("note:".data).isPrefixOf en.key.data)).map
    (fun en => (en.key, en.meta))

/-! ### Session manager (auth.ts) -/

/-- Session lifetime in seconds (auth.ts SESSION_TTL = 60 * 60 * 24). -/
def SESSION_TTL : Nat := 60 * 60 * 24

/-- auth.ts createSession: store a "valid" liveness marker under the
session key with the fixed TTL and return the token. The token itself is
produced by crypto.randomUUID, which is external randomness; it is passed
in as an argument here. -/
def createSession (st : KV) (token : String) (now : Nat) : String × KV :=
  (token, kvPut st ("session:" ++ token) (KVValue.vstr "valid") none (some (now + SESSION_TTL)))

/-- auth.ts validateSession: an empty token is rejected without a store
access; otherwise the liveness marker must be present (and unexpired) and
equal to "valid". -/
def validateSession (st : KV) (token : String) (now : Nat) : Bool :=
  if token = "" then false
  else
    match kvGet st ("session:" ++ token) now with
    | some (KVValue.vstr s) => s == "valid"
    | _ => false

/-- auth.ts deleteSession: delete the liveness marker when the token is
non-empty; a no-op otherwise. -/
def deleteSession (st : KV) (token : String) : KV :=
  if token = "" then st else kvDelete st ("session:" ++ token)

/-- auth.ts getSessionFromCookie uses the unanchored regex
/session=([^;]+)/ on the raw Cookie header. This function models that
regex search on a character list: it scans start positions left to right,
and at the first position where the literal "session=" matches and is
followed by at least one character other than a semicolon, it captures
the maximal run of non-semicolon characters. -/
def cookieSessionMatch : List Char → Option (List Char)
  | [] => none
  | c :: rest =>
    if ("session=".data).isPrefixOf (c :: rest) then
      match ((c :: rest).drop 8).takeWhile (fun ch => ch != ';') with
      | [] => cookieSessionMatch rest
      | v :: vs => some (v :: vs)
    else cookieSessionMatch rest

/-- auth.ts getSessionFromCookie: absent header gives null, otherwise the
regex capture (or null when the regex does not match). -/
def getSessionFromCookie (cookieHeader : Option String) : Option String :=
  match cookieHeader with
  | none => none
  | some cookie => (cookieSessionMatch cookie.data).map (fun v => String.mk v)

/-- Split a character list on semicolons (helper for stating what the
cookies in a Cookie header actually are). -/
def splitSemiAux : List Char → List Char → List (List Char)
  | [], acc => [acc.reverse]
  | c :: rest, acc =>
    if c = ';' then acc.reverse :: splitSemiAux rest []
    else splitSemiAux rest (c :: acc)

/-- Strip leading and trailing spaces from a character list. -/
def trimSpaces (l : List Char) : List Char :=
  (((l.dropWhile (fun c => c == ' ')).reverse.dropWhile (fun c => c == ' ')).reverse)

/-- The names of the cookies actually present in a Cookie header, per the
standard grammar: split on ";", trim spaces, name is everything before
the first "=". Used to state that a header contains no cookie of a given
name. -/
def cookieNames (s : String) : List String :=
  (splitSemiAux s.data []).map
    (fun part => String.mk ((trimSpaces part).takeWhile (fun c => c != '=')))

/-! ### Constant-time comparison (auth.ts secureCompare) -/

/-- UTF-8 encoding of a single character (what TextEncoder.encode does,
byte by byte), with bytes as natural numbers. -/
def utf8Bytes (c : Char) : List Nat :=
  let n := c.toNat
  if n < 0x80 then [n]
  else if n < 0x800 then
    [0xC0 ||| (n >>> 6), 0x80 ||| (n &&& 0x3F)]
  else if n < 0x10000 then
    [0xE0 ||| (n >>> 12), 0x80 ||| ((n >>> 6) &&& 0x3F), 0x80 ||| (n &&& 0x3F)]
  else
    [0xF0 ||| (n >>> 18), 0x80 ||| ((n >>> 12) &&& 0x3F),
     0x80 ||| ((n >>> 6) &&& 0x3F), 0x80 ||| (n &&& 0x3F)]

/-- UTF-8 encoding of a string (TextEncoder.encode). -/
def utf8Encode (s : String) : List Nat :=
  s.data.flatMap utf8Bytes

/-- The accumulated bitwise-or of xors of corresponding bytes, as in the
loop `result |= a[i] ^ b[i]` of secureCompare. -/
def xorFold (a b : List Nat) : Nat :=
  (a.zip b).foldl (fun r p => r ||| (p.1 ^^^ p.2)) 0

/-- auth.ts secureCompare: encode both strings as UTF-8; if the byte
lengths differ return false (the hash step in that branch only equalizes
timing and does not affect the result); otherwise or together the xors of
corresponding bytes and compare with zero. -/
def secureCompare (a b : String) : Bool :=
  let aB := utf8Encode a
  let bB := utf8Encode b
  if aB.length != bB.length then false
  else xorFold aB bB == 0

/-! ### Note id generation -/

/-- The alphanumeric alphabet (digits, upper case, lower case). -/
def alphanumChars : List Char :=
  "0123456789ABCDEFGHIJKLMNOPQRSTUVWXYZabcdefghijklmnopqrstuvwxyz".data

/-- Modelled from the spec: db.ts generateNoteId returns nanoid(8), and
nanoid's implementation is third-party code not present in the
repository. Per the spec ("Random id/token generator: cryptographically
secure, fixed-length alphanumeric output", "random 8-character identifier
drawn from an alphanumeric alphabet") and the source comment ("Format: 8
alphanumeric characters"), it is modelled as drawing, for each of the 8
positions, one character of the alphanumeric alphabet selected by an
externally supplied random byte. -/
def generateNoteId (rand : Nat → Nat) : String :=
  String.mk ((List.range 8).map (fun i => alphanumChars.getD (rand i % 62) '0'))

/-! ### Markdown rendering (external collaborator, modelled from the spec) -/

/-- Split a character list into lines at newline characters. -/
def linesAux : List Char → List Char → List (List Char)
  | [], acc => [acc.reverse]
  | c :: rest, acc =>
    if c = '\n' then acc.reverse :: linesAux rest []
    else linesAux rest (c :: acc)

/-- Render one Markdown line to HTML: ATX headings of levels 1 to 3
become heading elements, a blank line produces nothing, and any other
line becomes a paragraph. Raw HTML in the line passes through unchanged,
as marked does with inline HTML. -/
def mdLineL (line : List Char) : List Char :=
  if ("# ".data).isPrefixOf line then "<h1>".data ++ line.drop 2 ++ "</h1>\n".data
  else if ("## ".data).isPrefixOf line then "<h2>".data ++ line.drop 3 ++ "</h2>\n".data
  else if ("### ".data).isPrefixOf line then "<h3>".data ++ line.drop 4 ++ "</h3>\n".data
  else if line.isEmpty then []
  else "<p>".data ++ line ++ "</p>\n".data

/-- Modelled from the spec: the Markdown renderer (marked.parse, a
third-party dependency whose code is not in the repository) is a "pure
function markdown text to HTML text; GitHub-flavored, soft line breaks
become line breaks". It is modelled line by line: headings become heading
elements, other lines become their own block, raw HTML passes through. -/
def markedParse (content : String) : String :=
  String.mk ((linesAux content.data []).flatMap mdLineL)

/-! ### HTML sanitization (external collaborator, modelled from the spec)

The sanitizer (sanitize-html, a third-party dependency whose code is not
in the repository) is modelled from the spec and from SANITIZE_OPTIONS in
db.ts: a fixed allow-list of tags, a fixed allow-list of attributes per
tag, only the http, https and mailto URL schemes, and discarding (not
escaping) everything else; the contents of script-like elements are
discarded with them. The model tokenizes the HTML into text, tags and
stray unclosed angle brackets, filters the tags and attributes against
the allow-lists, and serializes the result with attribute values
escaped. Attribute parsing is simplified to space-separated name=value
chunks with quotes stripped.  -/

/-- A raw token of the HTML input: a piece of text (single characters by
construction), the contents of one <...> tag, or a stray unclosed
opening angle bracket whose partial tag content is dropped. -/
inductive RawTok where
  | rtext : List Char → RawTok
  | rtag : List Char → RawTok
  | rlt : RawTok
deriving DecidableEq

/-- Single pass tokenizer; the second argument is the accumulated tag
content (in reverse) when scanning inside a tag, and none in text mode. -/
def tokAux : List Char → Option (List Char) → List RawTok
  | [], none => []
  | [], some _ => [RawTok.rlt]
  | c :: rest, none =>
    if c = '<' then tokAux rest (some [])
    else RawTok.rtext [c] :: tokAux rest none
  | c :: rest, some acc =>
    if c = '>' then RawTok.rtag acc.reverse :: tokAux rest none
    else tokAux rest (some (c :: acc))

/-- Tokenize an HTML character list. -/
def tokenize (l : List Char) : List RawTok := tokAux l none

/-- Characters allowed in a tag name. -/
def isNameChar (c : Char) : Bool := c.isAlpha || c.isDigit

/-- The (lower-cased) tag name at the front of a tag's contents. -/
def tagNameOf (l : List Char) : String :=
  String.mk ((l.takeWhile isNameChar).map Char.toLower)

/-- Split into space-separated words, dropping empty ones. -/
def wordsAux : List Char → List Char → List (List Char)
  | [], acc => if acc.isEmpty then [] else [acc.reverse]
  | c :: rest, acc =>
    if c = ' ' then
      (if acc.isEmpty then wordsAux rest [] else acc.reverse :: wordsAux rest [])
    else wordsAux rest (c :: acc)

/-- Drop double quotes from an attribute value. -/
def stripQuotes (v : List Char) : List Char := v.filter (fun c => c != '"')

/-- Parse one name=value chunk: the (lower-cased) name is everything
before the first "=", the value everything after it with quotes
stripped. -/
def parseAttrChunk (w : List Char) : List Char × List Char :=
  ((w.takeWhile (fun ch => ch != '=')).map Char.toLower,
   stripQuotes ((w.dropWhile (fun ch => ch != '=')).drop 1))

/-- Parse a tag's contents into (closing flag, name, attributes). -/
def parseTagInside (inside : List Char) : Bool × String × List (List Char × List Char) :=
  match inside with
  | '/' :: r => (true, tagNameOf r, [])
  | _ =>
    (false, tagNameOf inside,
     (wordsAux (inside.dropWhile isNameChar) []).map parseAttrChunk)

/-- The tag allow-list (spec section 4.1: paragraphs, headings levels
1 to 3, lists, blockquotes, code spans and blocks, images, links, plus
span per the attribute list and br for line breaks). -/
def allowedTagsS : List String :=
  ["p", "h1", "h2", "h3", "ul", "ol", "li", "blockquote", "pre", "code",
   "img", "a", "span", "br"]

/-- Elements whose text content is discarded along with the tag. -/
def nonTextTags : List String := ["script", "style", "textarea", "option"]

/-- The attribute allow-list per tag (SANITIZE_OPTIONS in db.ts: images
src/alt/title; links href/title/target/rel; code, pre and span class
only). -/
def allowedAttrsFor (tag : String) : List String :=
  if tag = "img" then ["src", "alt", "title"]
  else if tag = "a" then ["href", "title", "target", "rel"]
  else if tag = "code" ∨ tag = "pre" ∨ tag = "span" then ["class"]
  else []

/-- URL scheme check: a value with no scheme is allowed, otherwise the
scheme must be http, https or mailto. -/
def schemeOk (v : List Char) : Bool :=
  let sch := v.takeWhile (fun ch => ch != ':')
  if sch.length = v.length then true
  else if sch.any (fun ch => ch == '/') then true
  else ["http", "https", "mailto"].contains (String.mk (sch.map Char.toLower))

/-- Keep only attributes on the allow-list of the tag; src and href must
additionally pass the scheme check. -/
def filterAttrs (tag : String) (attrs : List (List Char × List Char)) :
    List (List Char × List Char) :=
  attrs.filter (fun a =>
    ((allowedAttrsFor tag).contains (String.mk a.1)) &&
    (if String.mk a.1 = "src" ∨ String.mk a.1 = "href" then schemeOk a.2 else true))

/-- An output token of the sanitizer: a piece of text, or a tag with its
closing flag, name and surviving attributes. -/
inductive OutTok where
  | otext : List Char → OutTok
  | otag : Bool → String → List (List Char × List Char) → OutTok
deriving DecidableEq

/-- Does a raw tag's content close the named element? -/
def isCloseOf (name : String) (inside : List Char) : Bool :=
  match inside with
  | '/' :: r => tagNameOf r == name
  | _ => false

/-- Filter the token stream: text passes through, stray angle brackets
are escaped, allowed tags keep their allowed attributes, tags of
script-like elements cause everything up to the matching close tag to be
dropped (tracked by the second argument), all other tags are discarded. -/
def sanAux : List RawTok → Option String → List OutTok
  | [], _ => []
  | RawTok.rtext s :: ts, none => OutTok.otext s :: sanAux ts none
  | RawTok.rlt :: ts, none => OutTok.otext ("&lt;".data) :: sanAux ts none
  | RawTok.rtag inside :: ts, none =>
    let pt := parseTagInside inside
    if allowedTagsS.contains pt.2.1 then
      OutTok.otag pt.1 pt.2.1 (if pt.1 then [] else filterAttrs pt.2.1 pt.2.2) ::
        sanAux ts none
    else if !pt.1 && nonTextTags.contains pt.2.1 then sanAux ts (some pt.2.1)
    else sanAux ts none
  | RawTok.rtag inside :: ts, some name =>
    if isCloseOf name inside then sanAux ts none else sanAux ts (some name)
  | _ :: ts, some name => sanAux ts (some name)

/-- Sanitize a token stream. -/
def sanitizeToks (ts : List RawTok) : List OutTok := sanAux ts none

/-- Escape one character for an attribute value. -/
def escChar (c : Char) : List Char :=
  if c = '<' then "&lt;".data
  else if c = '>' then "&gt;".data
  else if c = '"' then "&quot;".data
  else if c = '&' then "&amp;".data
  else [c]

/-- Escape an attribute value. -/
def escapeVal (v : List Char) : List Char := v.flatMap escChar

/-- Serialize one surviving attribute. -/
def renderAttr (a : List Char × List Char) : List Char :=
  [' '] ++ a.1 ++ ['=', '"'] ++ escapeVal a.2 ++ ['"']

/-- Serialize one output token. -/
def renderTok : OutTok → List Char
  | OutTok.otext s => s
  | OutTok.otag closing name attrs =>
    '<' :: ((if closing then ['/'] else []) ++ name.data ++
      attrs.flatMap renderAttr ++ ['>'])

/-- Serialize a token stream. -/
def renderToks (ts : List OutTok) : List Char := ts.flatMap renderTok

/-- The sanitizer: tokenize, filter, serialize. -/
def sanitizeHtml (s : String) : String :=
  String.mk (renderToks (sanitizeToks (tokenize s.data)))

/-! ### Note store (db.ts) -/

/-- db.ts getNote: point lookup of the full record under the "note:"
key. -/
def getNote (st : KV) (id : String) (now : Nat) : Option Note :=
  match kvGet st ("note:" ++ id) now with
  | some (KVValue.vnote n) => some n
  | _ => none

/-- db.ts saveNote: re-read the existing record, render and sanitize the
Markdown, build the new record keeping the prior creation time when it is
truthy (created: existing?.created || now), stamp the update time, and
persist the full record together with its metadata projection. -/
def saveNote (st : KV) (id : String) (title : String) (content : String)
    (now : Nat) : Note × KV :=
  let existing := getNote st id now
  let htmlContent := sanitizeHtml (markedParse content)
  let note : Note :=
    { id := id, title := title, content := content, htmlContent := htmlContent,
      created :=
        match existing with
        | some ex => if ex.created = 0 then now else ex.created
        | none => now,
      updated := now }
  (note,
   kvPut st ("note:" ++ id) (KVValue.vnote note)
     (some { id := note.id, title := note.title,
             created := note.created, updated := note.updated }) none)

/-- db.ts deleteNote: read the record first; absent gives false with the
store unchanged, otherwise delete the key and report true. -/
def deleteNote (st : KV) (id : String) (now : Nat) : Bool × KV :=
  match getNote st id now with
  | none => (false, st)
  | some _ => (true, kvDelete st ("note:" ++ id))

/-- Insert into a list sorted by created descending, keeping already
placed elements with greater-or-equal created in front. -/
def insertDesc (m : NoteMeta) : List NoteMeta → List NoteMeta
  | [] => [m]
  | x :: xs => if m.created ≤ x.created then x :: insertDesc m xs else m :: x :: xs

/-- Sort by created descending (the comparator (a, b) => b.created -
a.created of db.ts getAllNotes). -/
def sortByCreatedDesc (l : List NoteMeta) : List NoteMeta :=
  l.foldr insertDesc []

/-- db.ts getAllNotes: list the "note:" key space, keep the non-null
metadata projections, sort by created descending. -/
def getAllNotes (st : KV) : List NoteMeta :=
  sortByCreatedDesc ((kvListNotes st).filterMap (fun kv => kv.2))

/-- JavaScript Array.prototype.findIndex: the first index satisfying the
predicate, none when there is none. -/
def findIndexM (q : NoteMeta → Bool) : List NoteMeta → Option Nat
  | [] => none
  | x :: xs => if q x then some 0 else (findIndexM q xs).map (fun i => i + 1)

/-- db.ts getPreviousNoteId: absent when the note itself is absent;
otherwise locate the note in the created-descending list and return the
id of the next entry (the next-older note), absent at the boundary. -/
def getPreviousNoteId (st : KV) (currentId : String) (now : Nat) : Option String :=
  match getNote st currentId now with
  | none => none
  | some _ =>
    let notes := getAllNotes st
    match findIndexM (fun n => n.id == currentId) notes with
    | none => none
    | some i => (notes.get? (i + 1)).map (fun n => n.id)

/-- db.ts getNextNoteId: absent when the note itself is absent; otherwise
locate the note in the created-descending list and return the id of the
preceding entry (the next-newer note), absent at the boundary. -/
def getNextNoteId (st : KV) (currentId : String) (now : Nat) : Option String :=
  match getNote st currentId now with
  | none => none
  | some _ =>
    let notes := getAllNotes st
    match findIndexM (fun n => n.id == currentId) notes with
    | none => none
    | some i => if i > 0 then (notes.get? (i - 1)).map (fun n => n.id) else none

/-! ### Store lemmas -/

/-- Filtering away a key makes a lookup of that key fail. -/
theorem find?_filter_ne (st : KV) (k : String) :
    (st.filter (fun en => en.key != k)).find? (fun en => en.key == k) = none := by
  apply List.find?_eq_none.mpr
  intro x hx
  have hmem := List.mem_filter.mp hx
  simpa using hmem.2

/-- A lookup that fails on the first list continues in the second. -/
theorem find?_append_of_none {p : KVEntry → Bool} {l1 l2 : KV}
    (h : l1.find? p = none) : (l1 ++ l2).find? p = l2.find? p := by
  induction l1 with
  | nil => rfl
  | cons x xs ih =>
    rw [List.find?_cons] at h
    cases hp : p x with
    | true => rw [hp] at h; exact absurd h (by simp)
    | false =>
      rw [hp] at h
      rw [List.cons_append, List.find?_cons, hp]
      exact ih h

/-- Reading a key right after writing it yields the written value, up to
the recorded expiration time. -/
theorem kvGet_put_same (st : KV) (k : String) (v : KVValue)
    (m : Option NoteMeta) (ex : Option Nat) (now : Nat) :
    kvGet (kvPut st k v m ex) k now =
      match ex with
      | none => some v
      | some t => if now < t then some v else none := by
  unfold kvGet kvPut
  rw [find?_append_of_none (find?_filter_ne st k)]
  simp [List.find?]

/-- Reading a key after deleting it fails. -/
theorem kvGet_delete (st : KV) (k : String) (now : Nat) :
    kvGet (kvDelete st k) k now = none := by
  unfold kvGet kvDelete
  rw [find?_filter_ne]

/-- A note read that failed does not succeed at a later time: note
entries never reappear, and an expired entry stays expired. -/
theorem getNote_none_mono (st : KV) (id : String) (now now' : Nat)
    (hle : now ≤ now') (h : getNote st id now = none) :
    getNote st id now' = none := by
  unfold getNote kvGet at h ⊢
  cases hf : st.find? (fun en => en.key == ("note:" ++ id)) with
  | none => simp [hf]
  | some en =>
    rw [hf] at h
    cases hex : en.expireAt with
    | none =>
      cases hv : en.value with
      | vnote n => exfalso; simp [hex, hv] at h
      | vstr s => simp [hf, hex, hv]
    | some t =>
      by_cases hlt : now < t
      · cases hv : en.value with
        | vnote n => exfalso; simp [hex, hv, hlt] at h
        | vstr s => simp [hf, hex, hv]
      · have hlt' : ¬ now' < t := by omega
        simp [hf, hex, hlt']

/-- Reading a note right after saving it yields the saved record. -/
theorem getNote_save (st : KV) (id t c : String) (now now' : Nat) :
    getNote (saveNote st id t c now).2 id now' = some (saveNote st id t c now).1 := by
  unfold getNote saveNote
  simp only []
  rw [kvGet_put_same]

/-! ### Bitwise lemmas for secureCompare -/

/-- A bitwise or of naturals is zero exactly when both are. -/
theorem nat_lor_eq_zero {a b : Nat} : a ||| b = 0 ↔ a = 0 ∧ b = 0 := by
  constructor
  · intro h
    constructor
    · apply Nat.eq_of_testBit_eq
      intro i
      have hb := congrArg (fun x => Nat.testBit x i) h
      simp only [Nat.testBit_or, Nat.zero_testBit, Bool.or_eq_false_iff] at hb
      simp [hb.1]
    · apply Nat.eq_of_testBit_eq
      intro i
      have hb := congrArg (fun x => Nat.testBit x i) h
      simp only [Nat.testBit_or, Nat.zero_testBit, Bool.or_eq_false_iff] at hb
      simp [hb.2]
  · rintro ⟨rfl, rfl⟩; rfl

/-- The accumulated or of xors is zero exactly when the accumulator is
zero and every paired byte agrees. -/
theorem xorFold_aux (l : List (Nat × Nat)) :
    ∀ acc, (l.foldl (fun r p => r ||| (p.1 ^^^ p.2)) acc = 0) ↔
      (acc = 0 ∧ ∀ p ∈ l, p.1 = p.2) := by
  induction l with
  | nil => intro acc; simp
  | cons hd tl ih =>
    intro acc
    simp only [List.foldl_cons, ih, List.mem_cons]
    rw [nat_lor_eq_zero, Nat.xor_eq_zero]
    constructor
    · rintro ⟨⟨h1, h2⟩, h3⟩
      refine ⟨h1, fun p hp => ?_⟩
      rcases hp with rfl | hp
      · exact h2
      · exact h3 p hp
    · rintro ⟨h1, h2⟩
      exact ⟨⟨h1, h2 hd (Or.inl rfl)⟩, fun p hp => h2 p (Or.inr hp)⟩

/-- Lists of equal length whose zipped pairs agree are equal. -/
theorem zip_pointwise_eq : ∀ (a b : List Nat), a.length = b.length →
    (∀ p ∈ a.zip b, p.1 = p.2) → a = b := by
  intro a
  induction a with
  | nil => intro b hlen _; cases b with | nil => rfl | cons y ys => simp at hlen
  | cons x xs ih =>
    intro b hlen hall
    cases b with
    | nil => simp at hlen
    | cons y ys =>
      have hx : x = y := hall (x, y) (by simp [List.zip])
      have : xs = ys := by
        apply ih ys (by simpa using hlen)
        intro p hp
        exact hall p (by simp [List.zip]; right; simpa [List.zip] using hp)
      rw [hx, this]

/-- Zipping a list with itself pairs each element with itself. -/
theorem zip_self_eq : ∀ (a : List Nat), ∀ p ∈ a.zip a, p.1 = p.2 := by
  intro a
  induction a with
  | nil => intro p hp; simp [List.zip] at hp
  | cons x xs ih =>
    intro p hp
    simp only [List.zip_cons_cons, List.mem_cons] at hp
    rcases hp with rfl | hp
    · rfl
    · exact ih p hp

/-- An in-range getD is a member of the list. -/
theorem getD_mem_of_lt : ∀ (l : List Char) (n : Nat) (d : Char),
    n < l.length → l.getD n d ∈ l := by
  intro l
  induction l with
  | nil => intro n d h; simp at h
  | cons x xs ih =>
    intro n d h
    cases n with
    | zero => simp [List.getD]
    | succ m =>
      have : xs.getD m d ∈ xs := ih m d (by simpa using h)
      simp [List.getD] at this ⊢
      right
      exact this

/-! ### Sanitizer safety -/

/-- The character list of "script". -/
def scriptCL : List Char := ['s', 'c', 'r', 'i', 'p', 't']

/-- The attributes of an output token (none for text). -/
def attrsOfTok : OutTok → List (List Char × List Char)
  | OutTok.otext _ => []
  | OutTok.otag _ _ attrs => attrs

/-- Well-formedness of a sanitizer output token: text without an opening
angle bracket, tags with an allow-listed name and allow-listed attribute
names. -/
def GoodTok : OutTok → Prop
  | OutTok.otext s => '<' ∉ s
  | OutTok.otag _ name attrs =>
    name ∈ allowedTagsS ∧ ∀ a ∈ attrs, String.mk a.1 ∈ allowedAttrsFor name

/-- Safety of a serialized character list: wherever an opening angle
bracket occurs, it is not followed by the word script. -/
def SafeOut (l : List Char) : Prop :=
  ∀ u v : List Char, l = u ++ '<' :: v → ¬ List.IsPrefix scriptCL v

/-- Text tokens produced by the tokenizer contain no opening angle
bracket. -/
theorem tokAux_text_no_lt : ∀ (l : List Char) (mode : Option (List Char))
    (s : List Char), RawTok.rtext s ∈ tokAux l mode → '<' ∉ s := by
  intro l
  induction l with
  | nil =>
    intro mode s h
    cases mode with
    | none => simp [tokAux] at h
    | some acc => simp [tokAux] at h
  | cons c rest ih =>
    intro mode s h
    cases mode with
    | none =>
      simp only [tokAux] at h
      by_cases hc : c = '<'
      · rw [if_pos hc] at h
        exact ih (some []) s h
      · rw [if_neg hc] at h
        rcases List.mem_cons.mp h with heq | h
        · injection heq with h1
          subst h1
          intro hm
          rcases List.mem_cons.mp hm with h2 | h2
          · exact hc h2.symm
          · simp at h2
        · exact ih none s h
    | some acc =>
      simp only [tokAux] at h
      by_cases hc : c = '>'
      · rw [if_pos hc] at h
        rcases List.mem_cons.mp h with heq | h
        · exact absurd heq (by simp)
        · exact ih none s h
      · rw [if_neg hc] at h
        exact ih (some (c :: acc)) s h

/-- Every token the sanitizer emits is well-formed, provided the text
tokens of the input stream contain no opening angle bracket. -/
theorem sanAux_good : ∀ (ts : List RawTok) (mode : Option String),
    (∀ s, RawTok.rtext s ∈ ts → '<' ∉ s) →
    ∀ tok ∈ sanAux ts mode, GoodTok tok := by
  intro ts
  induction ts with
  | nil => intro mode _ tok h; simp [sanAux] at h
  | cons t ts ih =>
    intro mode htext tok h
    have htext' : ∀ s, RawTok.rtext s ∈ ts → '<' ∉ s :=
      fun s hs => htext s (List.mem_cons_of_mem _ hs)
    cases mode with
    | some name =>
      cases t with
      | rtext s' => exact ih (some name) htext' tok h
      | rlt => exact ih (some name) htext' tok h
      | rtag inside =>
        simp only [sanAux] at h
        by_cases hcl : isCloseOf name inside
        · rw [if_pos hcl] at h
          exact ih none htext' tok h
        · rw [if_neg hcl] at h
          exact ih (some name) htext' tok h
    | none =>
      cases t with
      | rtext s' =>
        simp only [sanAux] at h
        rcases List.mem_cons.mp h with rfl | h
        · exact htext s' (List.mem_cons_self _ _)
        · exact ih none htext' tok h
      | rlt =>
        simp only [sanAux] at h
        rcases List.mem_cons.mp h with rfl | h
        · show ('<' ∉ "&lt;".data)
          decide
        · exact ih none htext' tok h
      | rtag inside =>
        simp only [sanAux] at h
        by_cases hal : allowedTagsS.contains (parseTagInside inside).2.1
        · rw [if_pos hal] at h
          rcases List.mem_cons.mp h with rfl | h
          · constructor
            · simpa using hal
            · intro a ha
              by_cases hcl : (parseTagInside inside).1
              · rw [if_pos hcl] at ha
                simp at ha
              · rw [if_neg hcl] at ha
                have := (List.mem_filter.mp ha).2
                have hband := Bool.and_eq_true_iff.mp this
                simpa using hband.1
          · exact ih none htext' tok h
        · rw [if_neg hal] at h
          by_cases hnt : !(parseTagInside inside).1 && nonTextTags.contains (parseTagInside inside).2.1
          · rw [if_pos hnt] at h
            exact ih (some (parseTagInside inside).2.1) htext' tok h
          · rw [if_neg hnt] at h
            exact ih none htext' tok h

/-- The empty output is safe. -/
theorem safeOut_nil : SafeOut [] := by
  intro u v h
  exact absurd h (by simp)

/-- Prepending a character other than the opening angle bracket preserves
safety. -/
theorem safeOut_cons (c : Char) (l : List Char) (hc : c ≠ '<')
    (h : SafeOut l) : SafeOut (c :: l) := by
  intro u v heq
  cases u with
  | nil =>
    rw [List.nil_append] at heq
    injection heq with h1 _
    exact absurd h1 hc
  | cons x u' =>
    rw [List.cons_append] at heq
    injection heq with _ h2
    exact h u' v h2

/-- Prepending bracket-free text preserves safety. -/
theorem safeOut_append_text (s l : List Char) (hs : '<' ∉ s)
    (h : SafeOut l) : SafeOut (s ++ l) := by
  induction s with
  | nil => simpa using h
  | cons c cs ih =>
    rw [List.cons_append]
    apply safeOut_cons
    · intro hc
      exact hs (by rw [hc]; exact List.mem_cons_self _ _)
    · exact ih (fun hm => hs (List.mem_cons_of_mem _ hm))

/-- An opening angle bracket located inside an appended pair whose first
part is bracket-free lies in the second part. -/
theorem split_lt_of_append : ∀ (body rest u v : List Char),
    body ++ rest = u ++ '<' :: v → '<' ∉ body →
    ∃ r1, rest = r1 ++ '<' :: v := by
  intro body
  induction body with
  | nil =>
    intro rest u v heq _
    exact ⟨u, by simpa using heq⟩
  | cons b bt ih =>
    intro rest u v heq hni
    cases u with
    | nil =>
      rw [List.nil_append] at heq
      rw [List.cons_append] at heq
      injection heq with h1 _
      subst h1
      exact absurd (List.mem_cons_self _ _) hni
    | cons x u' =>
      rw [List.cons_append, List.cons_append] at heq
      injection heq with _ h2
      exact ih rest u' v h2 (fun hm => hni (List.mem_cons_of_mem _ hm))

/-- A serialized tag chunk is safe: its body holds no opening angle
bracket and does not begin with the word script, and the remainder is
safe. -/
theorem safeOut_tag (body rest : List Char) (hb : '<' ∉ body)
    (hs : ¬ List.IsPrefix scriptCL (body ++ rest)) (hr : SafeOut rest) :
    SafeOut ('<' :: (body ++ rest)) := by
  intro u v heq
  cases u with
  | nil =>
    rw [List.nil_append] at heq
    injection heq with _ h2
    intro hp
    apply hs
    rw [h2]
    exact hp
  | cons x u' =>
    rw [List.cons_append] at heq
    injection heq with _ h2
    obtain ⟨r1, hr1⟩ := split_lt_of_append body rest u' v h2 hb
    exact hr r1 v hr1

/-- A list starting with a character other than s does not begin with the
word script. -/
theorem not_script_of_head_ne (c : Char) (hc : c ≠ 's') (l : List Char) :
    ¬ List.IsPrefix scriptCL (c :: l) := by
  rintro ⟨t, ht⟩
  injection ht with h1 _
  exact hc h1.symm

/-- A list whose second character is not c does not begin with the word
script. -/
theorem not_script_of_two (c d : Char) (hd : d ≠ 'c') (l : List Char) :
    ¬ List.IsPrefix scriptCL (c :: d :: l) := by
  rintro ⟨t, ht⟩
  injection ht with _ ht2
  injection ht2 with h2 _
  exact hd h2.symm

/-- No allow-listed tag name begins with the word script, whatever
follows it. -/
theorem allowed_name_not_script (name : String) (hmem : name ∈ allowedTagsS) :
    ∀ z, ¬ List.IsPrefix scriptCL (name.data ++ z) := by
  intro z
  fin_cases hmem <;>
    first
      | exact not_script_of_head_ne _ (by decide) _
      | exact not_script_of_two _ _ (by decide) _

/-- Allow-listed tag names contain no opening angle bracket. -/
theorem allowed_name_no_lt : ∀ name ∈ allowedTagsS, '<' ∉ name.data := by
  decide

/-- Allow-listed attribute names contain no opening angle bracket. -/
theorem allowed_attr_no_lt (tag a : String) (ha : a ∈ allowedAttrsFor tag) :
    '<' ∉ a.data := by
  unfold allowedAttrsFor at ha
  split at ha
  · fin_cases ha <;> decide
  · split at ha
    · fin_cases ha <;> decide
    · split at ha
      · fin_cases ha
        decide
      · simp at ha

/-- Allow-listed attribute names do not begin with on. -/
theorem allowed_attr_not_on (tag a : String) (ha : a ∈ allowedAttrsFor tag) :
    (("on".data).isPrefixOf a.data) = false := by
  unfold allowedAttrsFor at ha
  split at ha
  · fin_cases ha <;> decide
  · split at ha
    · fin_cases ha <;> decide
    · split at ha
      · fin_cases ha
        decide
      · simp at ha

/-- Attribute value escaping produces no opening angle bracket. -/
theorem escChar_no_lt (c : Char) : '<' ∉ escChar c := by
  unfold escChar
  by_cases h1 : c = '<'
  · rw [if_pos h1]; decide
  · rw [if_neg h1]
    by_cases h2 : c = '>'
    · rw [if_pos h2]; decide
    · rw [if_neg h2]
      by_cases h3 : c = '"'
      · rw [if_pos h3]; decide
      · rw [if_neg h3]
        by_cases h4 : c = '&'
        · rw [if_pos h4]; decide
        · rw [if_neg h4]
          intro hm
          rcases List.mem_cons.mp hm with heq | hm
          · exact h1 heq.symm
          · simp at hm

/-- Escaped attribute values contain no opening angle bracket. -/
theorem escapeVal_no_lt (v : List Char) : '<' ∉ escapeVal v := by
  intro hm
  obtain ⟨c, _, hc⟩ := List.mem_flatMap.mp hm
  exact escChar_no_lt c hc

/-- A serialized allow-listed attribute contains no opening angle
bracket. -/
theorem renderAttr_no_lt (name : String) (a : List Char × List Char)
    (ha : String.mk a.1 ∈ allowedAttrsFor name) : '<' ∉ renderAttr a := by
  intro hm
  unfold renderAttr at hm
  rcases List.mem_append.mp hm with hm | hm
  · rcases List.mem_append.mp hm with hm | hm
    · rcases List.mem_append.mp hm with hm | hm
      · rcases List.mem_append.mp hm with hm | hm
        · simp at hm
        · exact allowed_attr_no_lt name (String.mk a.1) ha hm
      · simp at hm
    · exact escapeVal_no_lt a.2 hm
  · simp at hm

/-- Serializing well-formed tokens yields a safe character list. -/
theorem renderToks_safe : ∀ (toks : List OutTok),
    (∀ tok ∈ toks, GoodTok tok) → SafeOut (renderToks toks) := by
  intro toks
  induction toks with
  | nil => intro _; exact safeOut_nil
  | cons tok toks ih =>
    intro hg
    have hgt := hg tok (List.mem_cons_self _ _)
    have hrest := ih (fun t ht => hg t (List.mem_cons_of_mem _ ht))
    have hsplit : renderToks (tok :: toks) = renderTok tok ++ renderToks toks := by
      simp [renderToks]
    rw [hsplit]
    cases tok with
    | otext s => exact safeOut_append_text s _ hgt hrest
    | otag closing name attrs =>
      obtain ⟨hname, hattrs⟩ := hgt
      have hre : renderTok (OutTok.otag closing name attrs) ++ renderToks toks
          = '<' :: (((if closing then ['/'] else []) ++ name.data ++
              attrs.flatMap renderAttr) ++ ('>' :: renderToks toks)) := by
        show ('<' :: (((if closing then ['/'] else []) ++ name.data ++
            attrs.flatMap renderAttr) ++ ['>'])) ++ renderToks toks = _
        rw [List.cons_append, List.append_assoc]
        rw [List.singleton_append]
      rw [hre]
      apply safeOut_tag
      · intro hm
        rcases List.mem_append.mp hm with hm | hm
        · rcases List.mem_append.mp hm with hm | hm
          · cases closing with
            | true => simp at hm
            | false => simp at hm
          · exact allowed_name_no_lt name hname hm
        · obtain ⟨a, ha, hmm⟩ := List.mem_flatMap.mp hm
          exact renderAttr_no_lt name a (hattrs a ha) hmm
      · cases closing with
        | true => exact not_script_of_head_ne '/' (by decide) _
        | false =>
          rw [if_neg (by simp), List.nil_append, List.append_assoc]
          exact allowed_name_not_script name hname _
      · apply safeOut_cons '>' _ (by decide) hrest

/-- The created-descending order on note metadata. -/
def createdGE (a b : NoteMeta) : Prop := b.created ≤ a.created

/-- Members of an insertion are the inserted element or old members. -/
theorem mem_insertDesc : ∀ (l : List NoteMeta) (m x : NoteMeta),
    x ∈ insertDesc m l → x = m ∨ x ∈ l := by
  intro l
  induction l with
  | nil => intro m x hx; simp [insertDesc] at hx; exact Or.inl hx
  | cons y ys ih =>
    intro m x hx
    unfold insertDesc at hx
    by_cases hc : m.created ≤ y.created
    · rw [if_pos hc] at hx
      rcases List.mem_cons.mp hx with rfl | hx
      · exact Or.inr (List.mem_cons_self _ _)
      · rcases ih m x hx with h | h
        · exact Or.inl h
        · exact Or.inr (List.mem_cons_of_mem _ h)
    · rw [if_neg hc] at hx
      rcases List.mem_cons.mp hx with rfl | hx
      · exact Or.inl rfl
      · exact Or.inr hx

/-- Insertion preserves the created-descending pairwise order. -/
theorem pairwise_insertDesc : ∀ (l : List NoteMeta) (m : NoteMeta),
    List.Pairwise createdGE l → List.Pairwise createdGE (insertDesc m l) := by
  intro l
  induction l with
  | nil => intro m _; simp [insertDesc, List.Pairwise]
  | cons x xs ih =>
    intro m hp
    rcases List.pairwise_cons.mp hp with ⟨hx, hxs⟩
    unfold insertDesc
    by_cases hc : m.created ≤ x.created
    · rw [if_pos hc]
      apply List.pairwise_cons.mpr
      refine ⟨?_, ih m hxs⟩
      intro y hy
      rcases mem_insertDesc xs m y hy with rfl | hy
      · exact hc
      · exact hx y hy
    · rw [if_neg hc]
      apply List.pairwise_cons.mpr
      constructor
      · intro y hy
        rcases List.mem_cons.mp hy with rfl | hy
        · exact Nat.le_of_lt (Nat.lt_of_not_le hc)
        · exact Nat.le_trans (hx y hy) (Nat.le_of_lt (Nat.lt_of_not_le hc))
      · exact hp

/-- The sort of getAllNotes is pairwise created-descending. -/
theorem sortByCreatedDesc_pairwise (l : List NoteMeta) :
    List.Pairwise createdGE (sortByCreatedDesc l) := by
  unfold sortByCreatedDesc
  induction l with
  | nil => simp
  | cons x xs ih => exact pairwise_insertDesc _ x ih

/-- A successful findIndexM hit is in range and satisfies the
predicate. -/
theorem findIndexM_found : ∀ (l : List NoteMeta) (q : NoteMeta → Bool) (i : Nat),
    findIndexM q l = some i → ∃ h : i < l.length, q (l.get ⟨i, h⟩) = true := by
  intro l
  induction l with
  | nil => intro q i h; simp [findIndexM] at h
  | cons x xs ih =>
    intro q i h
    unfold findIndexM at h
    by_cases hq : q x
    · rw [if_pos hq] at h
      have : i = 0 := by simpa using h.symm
      subst this
      exact ⟨by simp, hq⟩
    · rw [if_neg hq] at h
      obtain ⟨j, hj, rfl⟩ := Option.map_eq_some'.mp h
      obtain ⟨hlt, hql⟩ := ih q j hj
      exact ⟨by simpa using hlt, by simpa using hql⟩

/-- findIndexM returns the first hit: every earlier index fails the
predicate. -/
theorem findIndexM_first : ∀ (l : List NoteMeta) (q : NoteMeta → Bool) (i : Nat),
    findIndexM q l = some i →
    ∀ j, ∀ hj : j < l.length, j < i → q (l.get ⟨j, hj⟩) = false := by
  intro l
  induction l with
  | nil => intro q i h; simp [findIndexM] at h
  | cons x xs ih =>
    intro q i h j hj hji
    unfold findIndexM at h
    by_cases hq : q x
    · rw [if_pos hq] at h
      have : i = 0 := by simpa using h.symm
      omega
    · rw [if_neg hq] at h
      obtain ⟨k, hk, rfl⟩ := Option.map_eq_some'.mp h
      cases j with
      | zero => simpa using hq
      | succ n =>
        have := ih q k hk n (by simpa using hj) (by omega)
        simpa using this

/-- A first hit determines findIndexM. -/
theorem findIndexM_of : ∀ (l : List NoteMeta) (q : NoteMeta → Bool) (i : Nat)
    (h : i < l.length), q (l.get ⟨i, h⟩) = true →
    (∀ j, ∀ hj : j < l.length, j < i → q (l.get ⟨j, hj⟩) = false) →
    findIndexM q l = some i := by
  intro l
  induction l with
  | nil => intro q i h; simp at h
  | cons x xs ih =>
    intro q i h hq hfirst
    cases i with
    | zero =>
      have : q x = true := by simpa using hq
      simp [findIndexM, this]
    | succ m =>
      have hx : q x = false := by
        have := hfirst 0 (by simp) (by omega)
        simpa using this
      have hxs : findIndexM q xs = some m := by
        apply ih q m (by simpa using h)
        · simpa using hq
        · intro j hj hjm
          have := hfirst (j + 1) (by simpa using hj) (by omega)
          simpa using this
      simp [findIndexM, hx, hxs]

/-! ### Claim theorems -/

/-- C1: every identifier returned by the note-id generator is a string of
exactly 8 characters, each drawn from the alphanumeric alphabet, for
every behaviour of the external random source. -/
theorem generateNoteId_spec (rand : Nat → Nat) :
    (generateNoteId rand).length = 8 ∧
    ∀ c ∈ (generateNoteId rand).data, c.isAlphanum = true := by
  constructor
  · rfl
  · intro c hc
    have hm : c ∈ (List.range 8).map (fun i => alphanumChars.getD (rand i % 62) '0') := hc
    obtain ⟨i, _, rfl⟩ := List.mem_map.mp hm
    have hlen : alphanumChars.length = 62 := rfl
    have hlt : rand i % 62 < alphanumChars.length := by
      rw [hlen]; exact Nat.mod_lt _ (by decide)
    have hmem := getD_mem_of_lt alphanumChars (rand i % 62) '0' hlt
    have hall : ∀ x ∈ alphanumChars, x.isAlphanum = true := by decide
    exact hall _ hmem

/-- Witness for C1 at a concrete random source. -/
theorem generateNoteId_spec_witness :
    (generateNoteId (fun i => i)).length = 8 ∧ Char.isAlphanum '0' = true :=
  ⟨(generateNoteId_spec (fun i => i)).1,
   (generateNoteId_spec (fun i => i)).2 '0' (by decide)⟩

/-- C6: secureCompare decides byte equality: it returns false whenever
the UTF-8 byte lengths differ, and for equal-length inputs it returns
true exactly when the byte sequences agree. -/
theorem secureCompare_decides (a b : String) :
    ((utf8Encode a).length ≠ (utf8Encode b).length → secureCompare a b = false) ∧
    ((utf8Encode a).length = (utf8Encode b).length →
      (secureCompare a b = true ↔ utf8Encode a = utf8Encode b)) := by
  constructor
  · intro h
    unfold secureCompare
    rw [if_pos (by simpa using h)]
  · intro h
    unfold secureCompare
    rw [if_neg (by simp [h])]
    unfold xorFold
    rw [beq_iff_eq, xorFold_aux]
    constructor
    · rintro ⟨-, hall⟩
      exact zip_pointwise_eq _ _ h hall
    · intro hab
      refine ⟨rfl, ?_⟩
      rw [hab]
      exact zip_self_eq _

/-- Witness for C6: equal strings compare true, a one-byte extension
compares false. -/
theorem secureCompare_decides_witness :
    secureCompare "abc" "abc" = true ∧ secureCompare "abc" "abcx" = false :=
  ⟨((secureCompare_decides "abc" "abc").2 (by decide)).mpr (by decide),
   (secureCompare_decides "abc" "abcx").1 (by decide)⟩

/-- C7: validating the token returned by createSession succeeds
immediately after issuance, and validating any token after deleteSession
on that token fails, in every store state. -/
theorem session_lifecycle (st st2 : KV) (token : String) (now now2 : Nat)
    (h : token ≠ "") :
    validateSession (createSession st token now).2 token now = true ∧
    validateSession (deleteSession st2 token) token now2 = false := by
  constructor
  · unfold validateSession createSession
    simp only []
    rw [if_neg h, kvGet_put_same]
    have hlt : now < now + SESSION_TTL := by
      have : 0 < SESSION_TTL := by decide
      omega
    simp [hlt]
  · unfold validateSession deleteSession
    by_cases htok : token = ""
    · rw [if_pos htok]
    · rw [if_neg htok, if_neg htok, kvGet_delete]

/-- Witness for C7 at a concrete token and store. -/
theorem session_lifecycle_witness :
    validateSession (createSession [] "tkn" 0).2 "tkn" 0 = true ∧
    validateSession (deleteSession (createSession [] "tkn" 0).2 "tkn") "tkn" 99 = false :=
  ⟨(session_lifecycle [] (createSession [] "tkn" 0).2 "tkn" 0 99 (by decide)).1,
   (session_lifecycle [] (createSession [] "tkn" 0).2 "tkn" 0 99 (by decide)).2⟩

/-- C8: deleteNote reports true exactly when the note existed (and was
removed), reports false on an absent id without failing or changing the
store, and a subsequent get at any later time is absent. -/
theorem deleteNote_spec (st : KV) (id : String) (now now' : Nat)
    (hle : now ≤ now') :
    ((deleteNote st id now).1 = true ↔ getNote st id now ≠ none) ∧
    getNote (deleteNote st id now).2 id now' = none ∧
    (getNote st id now = none → deleteNote st id now = (false, st)) := by
  cases hg : getNote st id now with
  | none =>
    refine ⟨by simp [deleteNote, hg], ?_, by simp [deleteNote, hg]⟩
    have hst : (deleteNote st id now).2 = st := by simp [deleteNote, hg]
    rw [hst]
    exact getNote_none_mono st id now now' hle hg
  | some n =>
    refine ⟨by simp [deleteNote, hg], ?_, by simp [hg]⟩
    have hst : (deleteNote st id now).2 = kvDelete st ("note:" ++ id) := by
      simp [deleteNote, hg]
    rw [hst]
    unfold getNote
    rw [kvGet_delete]

/-- Witness for C8 at a concrete store. -/
theorem deleteNote_spec_witness :
    getNote (deleteNote (saveNote [] "k" "t" "c" 3).2 "k" 4).2 "k" 9 = none :=
  (deleteNote_spec (saveNote [] "k" "t" "c" 3).2 "k" 4 9 (by decide)).2.1

/-- C9: the unanchored regex search of getSessionFromCookie picks up a
cookie merely ending in "session": the header "xsession=evil" contains no
cookie named session, yet the extracted token is "evil". -/
theorem cookie_match_unanchored :
    getSessionFromCookie (some "xsession=evil") = some "evil" ∧
    cookieNames "xsession=evil" = ["xsession"] ∧
    (cookieNames "xsession=evil").contains "session" = false ∧
    ("session".data).isSuffixOf ("xsession".data) = true := by decide

/-- C10: saveNote preserves the prior creation timestamp only when it is
truthy; an existing record whose created field is 0 has its created field
reset to the current time by an update. -/
theorem saveNote_created_zero_reset (st : KV) (id t c : String) (now : Nat)
    (p : Note) (hp : getNote st id now = some p) (hz : p.created = 0) :
    (saveNote st id t c now).1.created = now := by
  unfold saveNote
  simp [hp, hz]

/-- A store holding one note whose created timestamp is zero. -/
def zeroCreatedStore : KV :=
  [⟨"note:k",
    KVValue.vnote { id := "k", title := "t0", content := "c0",
                    htmlContent := "", created := 0, updated := 0 },
    some { id := "k", title := "t0", created := 0, updated := 0 }, none⟩]

/-- Witness for C10 at a concrete store. -/
theorem saveNote_created_zero_reset_witness :
    (saveNote zeroCreatedStore "k" "t1" "c1" 7).1.created = 7 :=
  saveNote_created_zero_reset zeroCreatedStore "k" "t1" "c1" 7
    { id := "k", title := "t0", content := "c0", htmlContent := "",
      created := 0, updated := 0 } (by decide) (by decide)

/-- C3 counterexample: a prior record with created = 0 exists under "k",
yet the update does not keep that created timestamp: the new record's
created field is the current time 7, not 0. -/
theorem saveNote_preserve_created_cex :
    getNote zeroCreatedStore "k" 7 =
      some { id := "k", title := "t0", content := "c0", htmlContent := "",
             created := 0, updated := 0 } ∧
    (saveNote zeroCreatedStore "k" "t1" "c1" 7).1.created = 7 ∧
    ((saveNote zeroCreatedStore "k" "t1" "c1" 7).1.created == 0) = false := by
  decide

/-- C3 (amended): update followed by get returns the new record with the
given title and content and updated stamped to now; the prior created
timestamp is preserved whenever the prior record exists with a nonzero
created field (and reset to now when absent); updated does not decrease
assuming the clock did not go backwards. -/
theorem saveNote_update_roundtrip (st : KV) (id t c : String) (now now' : Nat) :
    getNote (saveNote st id t c now).2 id now' = some (saveNote st id t c now).1 ∧
    (saveNote st id t c now).1.title = t ∧
    (saveNote st id t c now).1.content = c ∧
    (saveNote st id t c now).1.updated = now ∧
    (∀ p, getNote st id now = some p → p.created ≠ 0 →
      (saveNote st id t c now).1.created = p.created) ∧
    (∀ p, getNote st id now = some p → p.updated ≤ now →
      p.updated ≤ (saveNote st id t c now).1.updated) ∧
    (getNote st id now = none → (saveNote st id t c now).1.created = now) := by
  refine ⟨getNote_save st id t c now now', rfl, rfl, rfl, ?_, ?_, ?_⟩
  · intro p hp hz
    unfold saveNote
    simp [hp, hz]
  · intro p hp hle
    have : (saveNote st id t c now).1.updated = now := rfl
    omega
  · intro hnone
    unfold saveNote
    simp [hnone]

/-- The sanitizer output never contains the substring of an opening
script tag, for every input. -/
theorem sanitizeHtml_no_script (s : String) :
    ¬ List.IsInfix ("<script".data) ((sanitizeHtml s).data) := by
  intro hinf
  obtain ⟨p, q, hpq⟩ := hinf
  have hsafe : SafeOut ((sanitizeHtml s).data) := by
    have hd : (sanitizeHtml s).data = renderToks (sanitizeToks (tokenize s.data)) := rfl
    rw [hd]
    apply renderToks_safe
    apply sanAux_good
    intro s' hs'
    exact tokAux_text_no_lt s.data none s' hs'
  have hform : (sanitizeHtml s).data = p ++ '<' :: (scriptCL ++ q) := by
    rw [← hpq]
    have hlit : "<script".data = '<' :: scriptCL := rfl
    rw [hlit, List.append_assoc, List.cons_append]
  exact hsafe p (scriptCL ++ q) hform ⟨q, rfl⟩

/-- Every attribute surviving sanitization has an allow-listed name, for
every input. -/
theorem sanitizeToks_attrs_allowed (s : String) :
    ∀ tok ∈ sanitizeToks (tokenize s.data), ∀ a ∈ attrsOfTok tok,
      ∃ name, String.mk a.1 ∈ allowedAttrsFor name := by
  intro tok htok a ha
  have hgood := sanAux_good (tokenize s.data) none
    (fun s' hs' => tokAux_text_no_lt s.data none s' hs') tok htok
  cases tok with
  | otext s' => simp [attrsOfTok] at ha
  | otag closing name attrs =>
    exact ⟨name, hgood.2 a ha⟩

/-- C2: after every write, the stored note's rendered HTML is exactly the
sanitization of the Markdown rendering of the new content (and the write
is what a subsequent get returns); moreover, for every content, the
rendered HTML contains no opening script tag substring, and every
attribute surviving in the serialized token stream the HTML consists of
has an allow-listed name, so none starts with on. -/
theorem saveNote_sanitizes (st : KV) (id title content : String)
    (now now' : Nat) :
    (saveNote st id title content now).1.htmlContent =
      sanitizeHtml (markedParse content) ∧
    getNote (saveNote st id title content now).2 id now' =
      some (saveNote st id title content now).1 ∧
    ¬ List.IsInfix ("<script".data)
      ((saveNote st id title content now).1.htmlContent.data) ∧
    (saveNote st id title content now).1.htmlContent =
      String.mk (renderToks (sanitizeToks (tokenize (markedParse content).data))) ∧
    (∀ tok ∈ sanitizeToks (tokenize (markedParse content).data),
      ∀ a ∈ attrsOfTok tok, (("on".data).isPrefixOf a.1) = false) := by
  refine ⟨rfl, getNote_save st id title content now now', ?_, rfl, ?_⟩
  · have hh : (saveNote st id title content now).1.htmlContent =
        sanitizeHtml (markedParse content) := rfl
    rw [hh]
    exact sanitizeHtml_no_script (markedParse content)
  · intro tok htok a ha
    obtain ⟨name, hname⟩ := sanitizeToks_attrs_allowed (markedParse content) tok htok a ha
    have := allowed_attr_not_on name (String.mk a.1) hname
    simpa using this

/-- Witness for C2 at a concrete malicious content: the rendered HTML has
no opening script tag, and the surviving src attribute of the image does
not start with on. -/
theorem saveNote_sanitizes_witness :
    ¬ List.IsInfix ("<script".data)
      ((saveNote [] "w" "T"
        "<script>alert(1)</script><img src=x onerror=alert(1)>" 5).1.htmlContent.data) ∧
    (("on".data).isPrefixOf ("src".data)) = false :=
  ⟨(saveNote_sanitizes [] "w" "T"
      "<script>alert(1)</script><img src=x onerror=alert(1)>" 5 5).2.2.1,
   (saveNote_sanitizes [] "w" "T"
      "<script>alert(1)</script><img src=x onerror=alert(1)>" 5 5).2.2.2.2
     (OutTok.otag false "img" [("src".data, "x".data)]) (by decide)
     ("src".data, "x".data) (by decide)⟩

/-- C5: getAllNotes is sorted by created descending: every adjacent pair
of the returned sequence is non-increasing in created, in every store
state. -/
theorem getAllNotes_sorted (st : KV) (i : Nat)
    (h : i + 1 < (getAllNotes st).length) :
    ((getAllNotes st).get ⟨i + 1, h⟩).created ≤
      ((getAllNotes st).get ⟨i, by omega⟩).created := by
  have hp : List.Pairwise createdGE (getAllNotes st) :=
    sortByCreatedDesc_pairwise _
  have := List.pairwise_iff_get.mp hp ⟨i, by omega⟩ ⟨i + 1, h⟩
    (by simp [Fin.mk_lt_mk])
  exact this

/-- A store with three notes A, B, C created at times 100, 200, 300. -/
def demoStore : KV :=
  (saveNote (saveNote (saveNote [] "A" "a" "c" 100).2 "B" "b" "c" 200).2
    "C" "cc" "c" 300).2

/-- Witness for C5 at a concrete store. -/
theorem getAllNotes_sorted_witness :
    ((getAllNotes demoStore).get ⟨1, by decide⟩).created ≤
      ((getAllNotes demoStore).get ⟨0, by decide⟩).created :=
  getAllNotes_sorted demoStore 0 (by decide)

/-- C4: previousOf and nextOf are mutual inverses along the
created-descending order: when the listed metadata ids are without
duplicates (as every store maintained through saveNote keeps them) and
both notes exist, previousOf(A) = B implies nextOf(B) = A; and both
operations return absent when the referenced note does not exist. -/
theorem prev_next_inverse (st : KV) (now : Nat) (A B : String) :
    (((getAllNotes st).map (fun n => n.id)).Nodup →
      getNote st B now ≠ none →
      getPreviousNoteId st A now = some B →
      getNextNoteId st B now = some A) ∧
    (getNote st A now = none →
      getPreviousNoteId st A now = none ∧ getNextNoteId st A now = none) := by
  constructor
  · intro hnodup hB hprev
    unfold getPreviousNoteId at hprev
    cases hgA : getNote st A now with
    | none => rw [hgA] at hprev; exact absurd hprev (by simp)
    | some nA =>
      rw [hgA] at hprev
      simp only [] at hprev
      cases hfi : findIndexM (fun n => n.id == A) (getAllNotes st) with
      | none => rw [hfi] at hprev; exact absurd hprev (by simp)
      | some i =>
        rw [hfi] at hprev
        obtain ⟨nB, hget, hidB⟩ := Option.map_eq_some'.mp hprev
        obtain ⟨hlt1, hgetB⟩ := List.get?_eq_some.mp hget
        obtain ⟨hltA, hqA⟩ := findIndexM_found (getAllNotes st) _ i hfi
        have hidA : ((getAllNotes st).get ⟨i, hltA⟩).id = A := by
          simpa using hqA
        have hfiB : findIndexM (fun n => n.id == B) (getAllNotes st) = some (i + 1) := by
          apply findIndexM_of (getAllNotes st) _ (i + 1) hlt1
          · rw [hgetB]
            simp [hidB]
          · intro j hj hji
            by_contra hcon
            have hjB : ((getAllNotes st).get ⟨j, hj⟩).id = B := by
              have : ((fun n => n.id == B) ((getAllNotes st).get ⟨j, hj⟩)) = true := by
                simpa using hcon
              simpa using this
            have hinj := List.nodup_iff_injective_get.mp hnodup
            have hmapj : ((getAllNotes st).map (fun n => n.id)).get
                ⟨j, by simpa using hj⟩ = B := by
              simp only [List.get_eq_getElem, List.getElem_map]
              simp only [List.get_eq_getElem] at hjB
              exact hjB
            have hmapi : ((getAllNotes st).map (fun n => n.id)).get
                ⟨i + 1, by simpa using hlt1⟩ = B := by
              simp only [List.get_eq_getElem, List.getElem_map]
              simp only [List.get_eq_getElem] at hgetB
              rw [hgetB, hidB]
            have heq := @hinj ⟨j, by simpa using hj⟩ ⟨i + 1, by simpa using hlt1⟩
              (by rw [hmapj, hmapi])
            have : j = i + 1 := by simpa using congrArg Fin.val heq
            omega
        unfold getNextNoteId
        cases hgB : getNote st B now with
        | none => exact absurd hgB hB
        | some nB2 =>
          simp only [hfiB]
          rw [if_pos (Nat.succ_pos i), Nat.add_sub_cancel, List.get?_eq_get hltA]
          simpa using hidA
  · intro hnone
    constructor
    · unfold getPreviousNoteId
      rw [hnone]
    · unfold getNextNoteId
      rw [hnone]

/-- Witness for C4 at a concrete store: previousOf(C) = B and
nextOf(B) = C. -/
theorem prev_next_inverse_witness : getNextNoteId demoStore "B" 400 = some "C" :=
  (prev_next_inverse demoStore 400 "C" "B").1 (by decide) (by decide) (by decide)

/-- Witness for C3 (amended) at a concrete store: a create at time 3
followed by an update at time 5 keeps created = 3 and round-trips. -/
theorem saveNote_update_roundtrip_witness :
    getNote (saveNote (saveNote [] "k" "t" "c" 3).2 "k" "t2" "c2" 5).2 "k" 6 =
      some (saveNote (saveNote [] "k" "t" "c" 3).2 "k" "t2" "c2" 5).1 ∧
    (saveNote (saveNote [] "k" "t" "c" 3).2 "k" "t2" "c2" 5).1.created = 3 :=
  ⟨(saveNote_update_roundtrip (saveNote [] "k" "t" "c" 3).2 "k" "t2" "c2" 5 6).1,
   (saveNote_update_roundtrip (saveNote [] "k" "t" "c" 3).2 "k" "t2" "c2" 5 6).2.2.2.2.1
     (saveNote [] "k" "t" "c" 3).1 (by decide) (by decide)⟩

end Notes
